import Mathlib

/-
  Verification development for the statistical arbitrage core of the
  TradingBot repository: the rolling z-score statistics and signal state
  machine of FixedPairBacktester (tests/strategies/pair_arbitrage_backtest_fixed.py),
  its capital and return accounting, the gate logic of
  CointegratedPairsFinder.find_all_pairs (src/data_feed/find_cointegrated_pairs.py),
  the ordering of CorrelationCalculator.find_strong_pairs
  (src/data_feed/calculate_correlations.py), and the missing data row filter of
  HistoricalDataFetcher.create_price_matrix (src/data_feed/fetch_historical_data.py).

  Prices and z-scores are embedded as exact rationals (Python floats are
  rationals); NaN cells are embedded as Option.none.  External statistics
  library calls (statsmodels coint and adfuller, scipy linregress) are
  embedded as oracle parameters, since their internals are not part of the
  repository.  Square roots land in the reals.
-/

set_option maxHeartbeats 1000000

namespace TradingBot

/-! ## Rolling spread statistics of FixedPairBacktester.calculate_spread

  calculate_spread computes, over two aligned close price series,
  spread = price1 - hedge * price2, then
  spread_mean = spread.rolling(window=lookback_window, min_periods=30).mean(),
  spread_std likewise (sample standard deviation), and
  z_score = (spread - spread_mean) / spread_std.
  A pandas rolling window at bar t covers bars max(0, t + 1 - w) .. t.
  The z-score at t is undefined (NaN) when fewer than 30 bars are
  available, and also when the window standard deviation is zero (the
  window then is constant and contains bar t, so the numerator is zero
  as well and 0 / 0 is NaN).
-/

/-- Arithmetic mean of a list of rationals (0 for the empty list). -/
def meanQ (l : List ℚ) : ℚ := l.sum / l.length

/-- Sample variance (ddof = 1, as pandas rolling std uses). -/
def sampleVarQ (l : List ℚ) : ℚ :=
  (l.map (fun x => (x - meanQ l) ^ 2)).sum / ((l.length - 1 : ℕ) : ℚ)

/-- Pointwise spread series: spread(i) = price1(i) - hedge * price2(i),
    defined where both price series are defined. -/
def spreadAt (p1 p2 : List ℚ) (hedge : ℚ) (i : ℕ) : Option ℚ :=
  match p1.get? i, p2.get? i with
  | some a, some b => some (a - hedge * b)
  | _, _ => none

/-- Indices of the trailing rolling window of width w ending at bar t
    (inclusive), clamped at the start of the series. -/
def windowIdx (w t : ℕ) : List ℕ := List.range' (t + 1 - w) (t + 1 - (t + 1 - w))

/-- The spread values inside the rolling window ending at t. -/
def windowSpread (p1 p2 : List ℚ) (hedge : ℚ) (w t : ℕ) : List ℚ :=
  (windowIdx w t).filterMap (spreadAt p1 p2 hedge)

/-- z_score at bar t as produced by calculate_spread: none models NaN
    (min_periods=30 not reached, or zero window standard deviation). -/
noncomputable def zScoreAt (p1 p2 : List ℚ) (hedge : ℚ) (w t : ℕ) : Option ℝ :=
  match spreadAt p1 p2 hedge t with
  | none => none
  | some sv =>
      if (windowSpread p1 p2 hedge w t).length < 30 then none
      else if sampleVarQ (windowSpread p1 p2 hedge w t) = 0 then none
      else some (((sv - meanQ (windowSpread p1 p2 hedge w t) : ℚ) : ℝ) /
        Real.sqrt ((sampleVarQ (windowSpread p1 p2 hedge w t) : ℚ)))

theorem mem_windowIdx_le {w t i : ℕ} (h : i ∈ windowIdx w t) : i ≤ t := by
  unfold windowIdx at h
  rw [List.mem_range'_1] at h
  omega

/-- C1: causality of the rolling z-score. The z-score at bar t computed by
    calculate_spread depends only on prices at bars up to and including t:
    replacing both price series by series that agree on every index up to t
    (and are arbitrary beyond t) leaves zScoreAt unchanged. -/
theorem zscore_causal (p1 p2 q1 q2 : List ℚ) (hedge : ℚ) (w t : ℕ)
    (h1 : ∀ i, i ≤ t → p1.get? i = q1.get? i)
    (h2 : ∀ i, i ≤ t → p2.get? i = q2.get? i) :
    zScoreAt p1 p2 hedge w t = zScoreAt q1 q2 hedge w t := by
  have hs : ∀ i, i ≤ t → spreadAt p1 p2 hedge i = spreadAt q1 q2 hedge i := by
    intro i hi
    unfold spreadAt
    rw [h1 i hi, h2 i hi]
  have hw : windowSpread p1 p2 hedge w t = windowSpread q1 q2 hedge w t := by
    unfold windowSpread
    exact List.filterMap_congr (fun i hi => hs i (mem_windowIdx_le hi))
  unfold zScoreAt
  rw [hs t le_rfl, hw]

/-- Witness for C1: two pairs of price series of length 32 that agree on
    bars 0..30 and differ at bar 31 give the same z-score at t = 30. -/
theorem zscore_causal_witness :
    (∀ i, i ≤ 30 → (List.replicate 31 (0 : ℚ) ++ [5]).get? i =
        (List.replicate 31 (0 : ℚ) ++ [7]).get? i) ∧
    zScoreAt (List.replicate 31 (0 : ℚ) ++ [5]) (List.replicate 31 (0 : ℚ) ++ [5]) 1 31 30 =
      zScoreAt (List.replicate 31 (0 : ℚ) ++ [7]) (List.replicate 31 (0 : ℚ) ++ [7]) 1 31 30 :=
  ⟨by decide, zscore_causal _ _ _ _ 1 31 30 (by decide) (by decide)⟩

/-! ## The signal state machine of FixedPairBacktester.generate_signals

  generate_signals iterates bars i = lookback_window .. len(z_score) - 1 with
  an integer position variable (0 = FLAT, 1 = LONG_SPREAD on BUY_SPREAD,
  -1 = SHORT_SPREAD on SELL_SPREAD) and a ledger of trade dicts.  A NaN
  z-score bar is skipped.  From FLAT, z < -entry_threshold opens BUY_SPREAD
  and z > entry_threshold opens SELL_SPREAD; from position 1, z > -exit_threshold
  closes the last trade; from position -1, z < exit_threshold closes it.
  After the loop a still open position has its trade closed at the final bar.
  Bars are modeled by their index; the trading date of bar i is dates i.
  The z-score series is the explicit argument of generate_signals, embedded
  as a list of Option rationals (none = NaN). -/

inductive SpreadAction where
  | buySpread
  | sellSpread
deriving DecidableEq, Repr

/-- A trade dict of generate_signals.  entryIdx and exitIdx are the bar
    indices of entry_date and exit_date; durationDays is
    dates exitIdx - dates entryIdx, set when the trade is closed. -/
structure TradeRec where
  entryIdx : ℕ
  action : SpreadAction
  entryZ : ℚ
  exitIdx : Option ℕ
  exitZ : Option ℚ
  durationDays : Option ℤ
deriving DecidableEq, Repr

def openTrade (i : ℕ) (a : SpreadAction) (zv : ℚ) : TradeRec :=
  ⟨i, a, zv, none, none, none⟩

def closeTrade (dates : ℕ → ℤ) (i : ℕ) (oz : Option ℚ) (t : TradeRec) : TradeRec :=
  { t with exitIdx := some i, exitZ := oz,
           durationDays := some (dates i - dates t.entryIdx) }

/-- Close the most recent trade (trades are kept most recent first;
    the Python code mutates trades[-1]). -/
def closeHead (dates : ℕ → ℤ) (i : ℕ) (oz : Option ℚ) : List TradeRec → List TradeRec
  | [] => []
  | t :: r => closeTrade dates i oz t :: r

/-- One loop iteration of generate_signals at bar i with z-score oz
    (none = NaN, skipped by the pd.isna check). -/
def stepSig (entryT exitT : ℚ) (dates : ℕ → ℤ) (i : ℕ) (oz : Option ℚ)
    (s : ℤ × List TradeRec) : ℤ × List TradeRec :=
  match oz with
  | none => s
  | some zv =>
    if s.1 = 0 then
      if zv < -entryT then (1, openTrade i .buySpread zv :: s.2)
      else if entryT < zv then (-1, openTrade i .sellSpread zv :: s.2)
      else s
    else if s.1 = 1 then
      if -exitT < zv then (0, closeHead dates i (some zv) s.2) else s
    else if s.1 = -1 then
      if zv < exitT then (0, closeHead dates i (some zv) s.2) else s
    else s

/-- State of generate_signals after processing every bar with index below k
    (bars below lookback are not visited by the loop). -/
def runUpTo (z : List (Option ℚ)) (entryT exitT : ℚ) (lb : ℕ) (dates : ℕ → ℤ) :
    ℕ → ℤ × List TradeRec
  | 0 => (0, [])
  | k + 1 =>
    if k < lb then runUpTo z entryT exitT lb dates k
    else stepSig entryT exitT dates k ((z.get? k).join)
      (runUpTo z entryT exitT lb dates k)

/-- The forced exit after the loop: a position still open at the end closes
    its trade at the final bar (exit_z = z_score.iloc[-1], possibly NaN). -/
def forceClose (z : List (Option ℚ)) (dates : ℕ → ℤ) (s : ℤ × List TradeRec) :
    List TradeRec :=
  if s.1 ≠ 0 ∧ s.2 ≠ [] then
    closeHead dates (z.length - 1) ((z.get? (z.length - 1)).join) s.2
  else s.2

/-- The trade ledger returned by generate_signals, oldest trade first. -/
def generateSignals (z : List (Option ℚ)) (entryT exitT : ℚ) (lb : ℕ)
    (dates : ℕ → ℤ) : List TradeRec :=
  (forceClose z dates (runUpTo z entryT exitT lb dates z.length)).reverse

/-- A finalized trade: exit fields populated, exit bar not before entry bar. -/
def closedWF (t : TradeRec) : Prop := ∃ e, t.exitIdx = some e ∧ t.entryIdx ≤ e

def allClosed (l : List TradeRec) : Prop := ∀ t ∈ l, closedWF t

/-- Ledger wellformedness in output order (oldest first): each trade is
    closed strictly before the next trade is entered. -/
def ledgerChain (l : List TradeRec) : Prop :=
  List.Chain' (fun a b => ∃ e, a.exitIdx = some e ∧ e < b.entryIdx) l

/-- Ledger wellformedness in internal order (most recent first). -/
def revLedgerChain (l : List TradeRec) : Prop :=
  List.Chain' (fun a b => ∃ e, b.exitIdx = some e ∧ e < a.entryIdx) l

def boundedBy (k : ℕ) (l : List TradeRec) : Prop :=
  ∀ t ∈ l, t.entryIdx < k ∧ ∀ e, t.exitIdx = some e → e < k

/-- Invariant of the generate_signals loop after processing bars below k. -/
def SigInv (k : ℕ) (s : ℤ × List TradeRec) : Prop :=
  (s.1 = 0 ∨ s.1 = 1 ∨ s.1 = -1) ∧
  (s.1 = 0 → allClosed s.2) ∧
  (s.1 ≠ 0 → ∃ t r, s.2 = t :: r ∧ t.exitIdx = none ∧ allClosed r) ∧
  revLedgerChain s.2 ∧
  boundedBy k s.2

theorem SigInv_mono {k k' : ℕ} {s : ℤ × List TradeRec} (hk : k ≤ k')
    (h : SigInv k s) : SigInv k' s := by
  obtain ⟨hp, hc, ho, hch, hb⟩ := h
  exact ⟨hp, hc, ho, hch, fun t ht => ⟨lt_of_lt_of_le (hb t ht).1 hk,
    fun e he => lt_of_lt_of_le ((hb t ht).2 e he) hk⟩⟩

theorem stepSig_inv {entryT exitT : ℚ} {dates : ℕ → ℤ} {k : ℕ} {oz : Option ℚ}
    {s : ℤ × List TradeRec} (h : SigInv k s) :
    SigInv (k + 1) (stepSig entryT exitT dates k oz s) := by
  obtain ⟨hp, hc, ho, hch, hb⟩ := h
  match oz with
  | none => exact SigInv_mono (Nat.le_succ k) ⟨hp, hc, ho, hch, hb⟩
  | some zv =>
    rw [stepSig]
    by_cases h0 : s.1 = 0
    · rw [if_pos h0]
      have hcl : allClosed s.2 := hc h0
      by_cases hlt : zv < -entryT
      · rw [if_pos hlt]
        refine ⟨Or.inr (Or.inl rfl), by simp, fun _ => ⟨_, s.2, rfl, rfl, hcl⟩, ?_, ?_⟩
        · cases hs2 : s.2 with
          | nil => simp [revLedgerChain]
          | cons t r =>
            refine List.Chain'.cons ?_ (hs2 ▸ hch)
            obtain ⟨e, he, _⟩ := hcl t (by rw [hs2]; exact List.Mem.head r)
            exact ⟨e, he, (hb t (by rw [hs2]; exact List.Mem.head r)).2 e he⟩
        · intro t ht
          rcases List.mem_cons.mp ht with h | h
          · subst h; exact ⟨Nat.lt_succ_self k, by simp [openTrade]⟩
          · exact ⟨Nat.lt_succ_of_lt (hb t h).1,
              fun e he => Nat.lt_succ_of_lt ((hb t h).2 e he)⟩
      · rw [if_neg hlt]
        by_cases hgt : entryT < zv
        · rw [if_pos hgt]
          refine ⟨Or.inr (Or.inr rfl), by simp, fun _ => ⟨_, s.2, rfl, rfl, hcl⟩, ?_, ?_⟩
          · cases hs2 : s.2 with
            | nil => simp [revLedgerChain]
            | cons t r =>
              refine List.Chain'.cons ?_ (hs2 ▸ hch)
              obtain ⟨e, he, _⟩ := hcl t (by rw [hs2]; exact List.Mem.head r)
              exact ⟨e, he, (hb t (by rw [hs2]; exact List.Mem.head r)).2 e he⟩
          · intro t ht
            rcases List.mem_cons.mp ht with h | h
            · subst h; exact ⟨Nat.lt_succ_self k, by simp [openTrade]⟩
            · exact ⟨Nat.lt_succ_of_lt (hb t h).1,
                fun e he => Nat.lt_succ_of_lt ((hb t h).2 e he)⟩
        · rw [if_neg hgt]
          exact SigInv_mono (Nat.le_succ k) ⟨hp, hc, ho, hch, hb⟩
    · rw [if_neg h0]
      obtain ⟨t, r, hs2, hopen, hclr⟩ := ho h0
      have hclose : SigInv (k + 1) (0, closeHead dates k (some zv) s.2) := by
        rw [hs2, closeHead]
        have hbt := hb t (by rw [hs2]; exact List.Mem.head r)
        refine ⟨Or.inl rfl, ?_, by simp, ?_, ?_⟩
        · intro _ u hu
          rcases List.mem_cons.mp hu with h | h
          · subst h
            exact ⟨k, rfl, Nat.le_of_lt hbt.1⟩
          · exact hclr u h
        · have : revLedgerChain (t :: r) := hs2 ▸ hch
          cases r with
          | nil => simp [revLedgerChain]
          | cons u r' =>
            rcases this with _ | ⟨hrel, htail⟩
            exact List.Chain'.cons hrel htail
        · intro u hu
          rcases List.mem_cons.mp hu with h | h
          · subst h
            exact ⟨Nat.lt_succ_of_lt hbt.1, by
              intro e he
              simp only [closeTrade, Option.some.injEq] at he
              omega⟩
          · have := hb u (by rw [hs2]; exact List.mem_cons_of_mem t h)
            exact ⟨Nat.lt_succ_of_lt this.1,
              fun e he => Nat.lt_succ_of_lt (this.2 e he)⟩
      by_cases h1 : s.1 = 1
      · rw [if_pos h1]
        by_cases hx : -exitT < zv
        · rw [if_pos hx]; exact hclose
        · rw [if_neg hx]
          exact SigInv_mono (Nat.le_succ k) ⟨hp, hc, ho, hch, hb⟩
      · rw [if_neg h1]
        by_cases hm1 : s.1 = -1
        · rw [if_pos hm1]
          by_cases hx : zv < exitT
          · rw [if_pos hx]; exact hclose
          · rw [if_neg hx]
            exact SigInv_mono (Nat.le_succ k) ⟨hp, hc, ho, hch, hb⟩
        · rw [if_neg hm1]
          exact SigInv_mono (Nat.le_succ k) ⟨hp, hc, ho, hch, hb⟩

theorem runUpTo_inv (z : List (Option ℚ)) (entryT exitT : ℚ) (lb : ℕ)
    (dates : ℕ → ℤ) (k : ℕ) : SigInv k (runUpTo z entryT exitT lb dates k) := by
  induction k with
  | zero =>
    refine ⟨Or.inl rfl, fun _ => ?_, fun h => absurd rfl h, ?_, ?_⟩
    · intro t ht; exact absurd ht (List.not_mem_nil t)
    · simp [runUpTo, revLedgerChain]
    · intro t ht; exact absurd ht (List.not_mem_nil t)
  | succ k ih =>
    rw [runUpTo]
    by_cases hk : k < lb
    · rw [if_pos hk]
      exact SigInv_mono (Nat.le_succ k) ih
    · rw [if_neg hk]
      exact stepSig_inv ih

theorem stepSig_legal (entryT exitT : ℚ) (dates : ℕ → ℤ) (i : ℕ) (oz : Option ℚ)
    (s : ℤ × List TradeRec) :
    (stepSig entryT exitT dates i oz s).1 = s.1 ∨ s.1 = 0 ∨
      (stepSig entryT exitT dates i oz s).1 = 0 := by
  match oz with
  | none => exact Or.inl rfl
  | some zv =>
    rw [stepSig]
    by_cases h0 : s.1 = 0
    · exact Or.inr (Or.inl h0)
    · rw [if_neg h0]
      by_cases h1 : s.1 = 1
      · rw [if_pos h1]
        by_cases hx : -exitT < zv
        · rw [if_pos hx]; exact Or.inr (Or.inr rfl)
        · rw [if_neg hx]; exact Or.inl rfl
      · rw [if_neg h1]
        by_cases hm : s.1 = -1
        · rw [if_pos hm]
          by_cases hx : zv < exitT
          · rw [if_pos hx]; exact Or.inr (Or.inr rfl)
          · rw [if_neg hx]; exact Or.inl rfl
        · rw [if_neg hm]; exact Or.inl rfl

theorem forceClose_wf (z : List (Option ℚ)) (dates : ℕ → ℤ) {s : ℤ × List TradeRec}
    (h : SigInv z.length s) :
    allClosed (forceClose z dates s) ∧ revLedgerChain (forceClose z dates s) := by
  obtain ⟨hp, hc, ho, hch, hb⟩ := h
  unfold forceClose
  by_cases hcond : s.1 ≠ 0 ∧ s.2 ≠ []
  · rw [if_pos hcond]
    obtain ⟨t, r, hs2, hopen, hclr⟩ := ho hcond.1
    rw [hs2, closeHead]
    have hbt := hb t (by rw [hs2]; exact List.Mem.head r)
    constructor
    · intro u hu
      rcases List.mem_cons.mp hu with h | h
      · subst h
        refine ⟨z.length - 1, rfl, ?_⟩
        have := hbt.1
        simp only [closeTrade]
        omega
      · exact hclr u h
    · have hchain : revLedgerChain (t :: r) := hs2 ▸ hch
      cases r with
      | nil => simp [revLedgerChain]
      | cons u r' =>
        rcases hchain with _ | ⟨hrel, htail⟩
        refine List.Chain'.cons ?_ htail
        simpa [closeTrade] using hrel
  · rw [if_neg hcond]
    refine ⟨?_, hch⟩
    by_cases h0 : s.1 = 0
    · exact hc h0
    · intro u hu
      rcases not_and_or.mp hcond with h | h
      · exact absurd (not_not.mp h) h0
      · rw [not_not.mp h] at hu
        exact absurd hu (List.not_mem_nil u)

theorem ledgerChain_of_rev {l : List TradeRec} (h : revLedgerChain l) :
    ledgerChain l.reverse := by
  unfold ledgerChain
  rw [List.chain'_reverse]
  exact h

/-- C2: the position sequence of generate_signals is a walk on
    {0 = FLAT, 1 = LONG_SPREAD, -1 = SHORT_SPREAD} that starts at FLAT,
    never moves directly between the two non-FLAT states (every step either
    keeps the position or passes through FLAT, so at most one position is
    open at a time), and the run ends flat: after the forced exit at the
    final bar every trade in the returned ledger is finalized, with exit bar
    not before its entry bar, and each trade exits strictly before the next
    trade is entered. -/
theorem generate_signals_walk (z : List (Option ℚ)) (entryT exitT : ℚ) (lb : ℕ)
    (dates : ℕ → ℤ) :
    (runUpTo z entryT exitT lb dates 0).1 = 0 ∧
    (∀ k, ((runUpTo z entryT exitT lb dates (k + 1)).1 =
             (runUpTo z entryT exitT lb dates k).1 ∨
           (runUpTo z entryT exitT lb dates k).1 = 0 ∨
           (runUpTo z entryT exitT lb dates (k + 1)).1 = 0) ∧
          ((runUpTo z entryT exitT lb dates k).1 = 0 ∨
           (runUpTo z entryT exitT lb dates k).1 = 1 ∨
           (runUpTo z entryT exitT lb dates k).1 = -1)) ∧
    allClosed (generateSignals z entryT exitT lb dates) ∧
    ledgerChain (generateSignals z entryT exitT lb dates) := by
  have hwf := forceClose_wf z dates (runUpTo_inv z entryT exitT lb dates z.length)
  refine ⟨rfl, ?_, ?_, ?_⟩
  · intro k
    constructor
    · rw [runUpTo]
      by_cases hk : k < lb
      · rw [if_pos hk]; exact Or.inl rfl
      · rw [if_neg hk]
        exact stepSig_legal entryT exitT dates k _ _
    · exact (runUpTo_inv z entryT exitT lb dates k).1
  · intro t ht
    exact hwf.1 t (List.mem_reverse.mp ht)
  · exact ledgerChain_of_rev hwf.2

/-- Witness for C2: on the z-score series [0, -3, 0] with entry threshold 2,
    exit threshold 1 and lookback 1, the single generated trade (entry at
    bar 1, BUY_SPREAD, exit at bar 2) is finalized. -/
theorem generate_signals_walk_witness :
    (⟨1, .buySpread, -3, some 2, some 0, some 1⟩ : TradeRec) ∈
      generateSignals [some 0, some (-3), some 0] 2 1 1 (fun n => (n : ℤ)) ∧
    closedWF (⟨1, .buySpread, -3, some 2, some 0, some 1⟩ : TradeRec) :=
  ⟨by decide,
   (generate_signals_walk [some 0, some (-3), some 0] 2 1 1
      (fun n => (n : ℤ))).2.2.1 _ (by decide)⟩

/-- C9: a NaN z-score bar inside the loop range is inert: at any bar
    t at or beyond the lookback window where the z-score is undefined, the
    pd.isna guard skips the bar, so neither the position nor the trade
    ledger changes at t. -/
theorem nan_bar_inert (z : List (Option ℚ)) (entryT exitT : ℚ) (lb : ℕ)
    (dates : ℕ → ℤ) (t : ℕ) (hlb : lb ≤ t) (hz : z.get? t = some none) :
    runUpTo z entryT exitT lb dates (t + 1) = runUpTo z entryT exitT lb dates t := by
  rw [runUpTo, if_neg (Nat.not_lt.mpr hlb), hz]
  rfl

/-- Witness for C9: a NaN at bar 1 of [some 0, none, some 3] changes nothing
    even though the bar 1 value would otherwise matter. -/
theorem nan_bar_inert_witness :
    runUpTo [some 0, none, some 3] 2 1 1 (fun n => (n : ℤ)) 2 =
      runUpTo [some 0, none, some 3] 2 1 1 (fun n => (n : ℤ)) 1 :=
  nan_bar_inert [some 0, none, some 3] 2 1 1 (fun n => (n : ℤ)) 1
    (by decide) (by decide)

/-! ## Capital and return accounting of FixedPairBacktester

  calculate_capital_required charges the full price of the leg bought
  outright and margin_requirement times the notional of the leg sold short:
  BUY_SPREAD buys one unit of instrument 1 and shorts hedge_ratio units of
  instrument 2 (capital = price1 + margin * hedge * price2); SELL_SPREAD
  shorts one unit of instrument 1 and buys hedge_ratio units of instrument 2
  (capital = margin * price1 + hedge * price2).  calculate_returns looks up
  entry and exit close prices by bar, computes pnl, capital_required and
  return_pct = pnl / capital * 100 when capital > 0 (else 0), and an
  annualized return only for trades with duration_days > 0. -/

def calcCapitalRequired (hedge m : ℚ) (a : SpreadAction) (price1 price2 : ℚ) : ℚ :=
  match a with
  | .buySpread => price1 + m * hedge * price2
  | .sellSpread => m * price1 + hedge * price2

/-- A trade row after calculate_returns filled in the price, pnl, capital
    and return columns. -/
structure TradeFull where
  base : TradeRec
  p1Entry : ℚ
  p2Entry : ℚ
  p1Exit : ℚ
  p2Exit : ℚ
  pnl : ℚ
  capitalRequired : ℚ
  returnPct : ℚ
deriving DecidableEq, Repr

/-- The per-trade body of the calculate_returns loop.  Prices are total
    maps from bar index to close price (the code indexes the two data
    frames by the stored entry and exit dates). -/
def enrichTrade (p1 p2 : ℕ → ℚ) (hedge m : ℚ) (t : TradeRec) : Option TradeFull :=
  match t.exitIdx with
  | none => none
  | some e =>
      some { base := t
             p1Entry := p1 t.entryIdx
             p2Entry := p2 t.entryIdx
             p1Exit := p1 e
             p2Exit := p2 e
             pnl :=
               match t.action with
               | .buySpread => (p1 e - p1 t.entryIdx) - hedge * (p2 e - p2 t.entryIdx)
               | .sellSpread => (p1 t.entryIdx - p1 e) - hedge * (p2 t.entryIdx - p2 e)
             capitalRequired :=
               calcCapitalRequired hedge m t.action (p1 t.entryIdx) (p2 t.entryIdx)
             returnPct :=
               if 0 < calcCapitalRequired hedge m t.action (p1 t.entryIdx) (p2 t.entryIdx) then
                 (match t.action with
                  | .buySpread => (p1 e - p1 t.entryIdx) - hedge * (p2 e - p2 t.entryIdx)
                  | .sellSpread => (p1 t.entryIdx - p1 e) - hedge * (p2 t.entryIdx - p2 e)) /
                   calcCapitalRequired hedge m t.action (p1 t.entryIdx) (p2 t.entryIdx) * 100
               else 0 }

def calcReturns (p1 p2 : ℕ → ℚ) (hedge m : ℚ) (trades : List TradeRec) : List TradeFull :=
  trades.filterMap (enrichTrade p1 p2 hedge m)

/-- The annualized_return column: computed only for trades with
    duration_days > 0, as (1 + return_pct/100)^(365/duration) - 1, in
    percent; none models an absent value. -/
noncomputable def annualizedReturn (t : TradeFull) : Option ℝ :=
  match t.base.durationDays with
  | none => none
  | some d =>
      if 0 < d then
        some (((1 + (t.returnPct : ℝ) / 100) ^ ((365 : ℝ) / (d : ℝ)) - 1) * 100)
      else none

/-- C3 counterexample: for a SELL_SPREAD entry at price1 = price2 = 10 with
    hedge ratio 2 and margin requirement 1.3, calculate_capital_required
    returns 1.3 * 10 + 2 * 10 = 33, not the claimed
    marginRequirement * hedgeRatio * price1 + hedgeRatio * price2 = 46. -/
theorem capital_claim_counterexample :
    calcCapitalRequired 2 (13/10) .sellSpread 10 10 ≠ (13/10) * 2 * 10 + 2 * 10 := by
  norm_num [calcCapitalRequired]

/-- C3 amended: the capital recorded for every finalized trade follows
    calculate_capital_required applied to the recorded entry prices:
    price1 + margin * hedge * price2 for BUY_SPREAD, and
    margin * price1 + hedge * price2 for SELL_SPREAD (margin applies to the
    single short unit of leg 1, without the hedge ratio factor). -/
theorem capital_recorded_amended (p1 p2 : ℕ → ℚ) (hedge m : ℚ)
    (trades : List TradeRec) (f : TradeFull)
    (hf : f ∈ calcReturns p1 p2 hedge m trades) :
    f.capitalRequired =
      match f.base.action with
      | .buySpread => f.p1Entry + m * hedge * f.p2Entry
      | .sellSpread => m * f.p1Entry + hedge * f.p2Entry := by
  rcases List.mem_filterMap.mp hf with ⟨t, _, ht⟩
  obtain ⟨ti, ta, tz, tex, tez, td⟩ := t
  cases tex with
  | none =>
      simp only [enrichTrade] at ht
      exact Option.noConfusion ht
  | some e =>
      simp only [enrichTrade, Option.some.injEq] at ht
      subst ht
      cases ta <;> rfl

/-- Witness for the amended C3 at a concrete SELL_SPREAD trade. -/
theorem capital_recorded_amended_witness :
    ∃ f ∈ calcReturns (fun _ => (10 : ℚ)) (fun _ => (10 : ℚ)) 2 (13/10)
        [⟨0, .sellSpread, 3, some 1, some 0, some 1⟩],
      f.capitalRequired =
        match f.base.action with
        | .buySpread => f.p1Entry + (13/10) * 2 * f.p2Entry
        | .sellSpread => (13/10) * f.p1Entry + 2 * f.p2Entry :=
  ⟨_, List.Mem.head _,
   capital_recorded_amended (fun _ => (10 : ℚ)) (fun _ => (10 : ℚ)) 2 (13/10)
     [⟨0, .sellSpread, 3, some 1, some 0, some 1⟩] _ (List.Mem.head _)⟩

/-- C4 counterexample: calculate_returns records return_pct in percent,
    pnl / capital * 100, so a finalized BUY_SPREAD trade with pnl = 1 and
    capital = 23 records 100/23, which differs from pnl / capital = 1/23;
    and a trade whose entry prices are both zero records capital 0, which
    is not strictly positive. -/
theorem return_pct_counterexample :
    (∃ f ∈ calcReturns (fun i => if i = 0 then (10 : ℚ) else 11) (fun _ => (10 : ℚ))
        1 (13/10) [⟨0, .buySpread, -3, some 1, some 0, some 1⟩],
      f.returnPct ≠ f.pnl / f.capitalRequired) ∧
    (∃ g ∈ calcReturns (fun _ => (0 : ℚ)) (fun _ => (0 : ℚ))
        1 (13/10) [⟨0, .buySpread, -3, some 1, some 0, some 1⟩],
      ¬ 0 < g.capitalRequired) := by
  constructor
  · refine ⟨_, List.Mem.head _, ?_⟩
    norm_num [calcReturns, enrichTrade, calcCapitalRequired]
  · refine ⟨_, List.Mem.head _, ?_⟩
    norm_num [calcReturns, enrichTrade, calcCapitalRequired]

/-- C4 amended: for every finalized trade whose entry prices are positive
    (with positive hedge ratio and margin requirement, as configured),
    the recorded capital is strictly positive and the recorded return_pct
    equals pnl / capital expressed in percent, 100 * (pnl / capital). -/
theorem return_pct_amended (p1 p2 : ℕ → ℚ) (hedge m : ℚ)
    (trades : List TradeRec) (f : TradeFull)
    (hf : f ∈ calcReturns p1 p2 hedge m trades)
    (hh : 0 < hedge) (hm : 0 < m) (hp1 : 0 < f.p1Entry) (hp2 : 0 < f.p2Entry) :
    0 < f.capitalRequired ∧ f.returnPct = 100 * (f.pnl / f.capitalRequired) := by
  rcases List.mem_filterMap.mp hf with ⟨t, _, ht⟩
  obtain ⟨ti, ta, tz, tex, tez, td⟩ := t
  cases tex with
  | none =>
      simp only [enrichTrade] at ht
      exact Option.noConfusion ht
  | some e =>
      simp only [enrichTrade, Option.some.injEq] at ht
      subst ht
      cases ta with
      | buySpread =>
          have hcap : (0 : ℚ) < p1 ti + m * hedge * p2 ti :=
            add_pos hp1 (mul_pos (mul_pos hm hh) hp2)
          refine ⟨hcap, ?_⟩
          show (if 0 < calcCapitalRequired hedge m .buySpread (p1 ti) (p2 ti) then
              ((p1 e - p1 ti) - hedge * (p2 e - p2 ti)) /
                calcCapitalRequired hedge m .buySpread (p1 ti) (p2 ti) * 100 else 0) = _
          rw [if_pos (show 0 < calcCapitalRequired hedge m .buySpread (p1 ti) (p2 ti) from hcap)]
          show _ = 100 * (((p1 e - p1 ti) - hedge * (p2 e - p2 ti)) /
            calcCapitalRequired hedge m .buySpread (p1 ti) (p2 ti))
          ring
      | sellSpread =>
          have hcap : (0 : ℚ) < m * p1 ti + hedge * p2 ti :=
            add_pos (mul_pos hm hp1) (mul_pos hh hp2)
          refine ⟨hcap, ?_⟩
          show (if 0 < calcCapitalRequired hedge m .sellSpread (p1 ti) (p2 ti) then
              ((p1 ti - p1 e) - hedge * (p2 ti - p2 e)) /
                calcCapitalRequired hedge m .sellSpread (p1 ti) (p2 ti) * 100 else 0) = _
          rw [if_pos (show 0 < calcCapitalRequired hedge m .sellSpread (p1 ti) (p2 ti) from hcap)]
          show _ = 100 * (((p1 ti - p1 e) - hedge * (p2 ti - p2 e)) /
            calcCapitalRequired hedge m .sellSpread (p1 ti) (p2 ti))
          ring

/-- Witness for the amended C4 at a concrete BUY_SPREAD trade with positive
    prices. -/
theorem return_pct_amended_witness :
    ∃ f ∈ calcReturns (fun _ => (10 : ℚ)) (fun _ => (12 : ℚ)) 2 (13/10)
        [⟨0, .buySpread, -3, some 1, some 0, some 1⟩],
      0 < f.capitalRequired ∧ f.returnPct = 100 * (f.pnl / f.capitalRequired) :=
  ⟨_, List.Mem.head _,
   return_pct_amended (fun _ => (10 : ℚ)) (fun _ => (12 : ℚ)) 2 (13/10)
     [⟨0, .buySpread, -3, some 1, some 0, some 1⟩] _ (List.Mem.head _)
     (by norm_num) (by norm_num) (by norm_num) (by norm_num)⟩

/-- C10: if the backtester is still flat just before the final bar and the
    entry condition holds at the final bar, a trade is opened there and
    immediately force-closed at that same bar: its exit bar equals its entry
    bar, duration_days is 0, and for any price data calculate_returns gives
    it pnl 0 and return_pct 0 (entry and exit prices coincide) and computes
    no annualized return. -/
theorem last_bar_entry (z : List (Option ℚ)) (entryT exitT : ℚ) (lb : ℕ)
    (dates : ℕ → ℤ) (n : ℕ) (v : ℚ) (tr : List TradeRec)
    (hn : z.length = n + 1) (hlb : lb ≤ n)
    (hflat : runUpTo z entryT exitT lb dates n = (0, tr))
    (hz : z.get? n = some (some v))
    (hcond : v < -entryT ∨ entryT < v) :
    ∃ a : SpreadAction,
      generateSignals z entryT exitT lb dates =
        tr.reverse ++ [⟨n, a, v, some n, some v, some 0⟩] ∧
      ∀ p1 p2 hedge m, ∃ f : TradeFull,
        enrichTrade p1 p2 hedge m (⟨n, a, v, some n, some v, some 0⟩ : TradeRec) = some f ∧
          f.pnl = 0 ∧ f.returnPct = 0 ∧ annualizedReturn f = none := by
  have hdz : dates n - dates n = 0 := sub_self _
  have hstep : ∀ a : SpreadAction,
      closeTrade dates n (some v) (openTrade n a v) =
        (⟨n, a, v, some n, some v, some 0⟩ : TradeRec) := by
    intro a
    simp [closeTrade, openTrade, hdz]
  have henrich : ∀ a : SpreadAction, ∀ p1 p2 hedge m, ∃ f : TradeFull,
      enrichTrade p1 p2 hedge m (⟨n, a, v, some n, some v, some 0⟩ : TradeRec) = some f ∧
        f.pnl = 0 ∧ f.returnPct = 0 ∧ annualizedReturn f = none := by
    intro a p1 p2 hedge m
    have hz0 : (p1 n - p1 n) - hedge * (p2 n - p2 n) = 0 := by ring
    cases a with
    | buySpread =>
        refine ⟨_, rfl, ?_, ?_, ?_⟩
        · exact hz0
        · show (if 0 < calcCapitalRequired hedge m .buySpread (p1 n) (p2 n) then
              ((p1 n - p1 n) - hedge * (p2 n - p2 n)) /
                calcCapitalRequired hedge m .buySpread (p1 n) (p2 n) * 100 else 0) = 0
          rw [hz0]
          simp
        · show annualizedReturn _ = none
          simp [annualizedReturn]
    | sellSpread =>
        refine ⟨_, rfl, ?_, ?_, ?_⟩
        · exact hz0
        · show (if 0 < calcCapitalRequired hedge m .sellSpread (p1 n) (p2 n) then
              ((p1 n - p1 n) - hedge * (p2 n - p2 n)) /
                calcCapitalRequired hedge m .sellSpread (p1 n) (p2 n) * 100 else 0) = 0
          rw [hz0]
          simp
        · show annualizedReturn _ = none
          simp [annualizedReturn]
  have hrun : runUpTo z entryT exitT lb dates (n + 1) =
      stepSig entryT exitT dates n (some v) (0, tr) := by
    rw [runUpTo, if_neg (Nat.not_lt.mpr hlb), hflat, hz]
    rfl
  have hfinish : ∀ a : SpreadAction, ∀ p : ℤ, p ≠ 0 →
      runUpTo z entryT exitT lb dates (n + 1) = (p, openTrade n a v :: tr) →
      generateSignals z entryT exitT lb dates =
        tr.reverse ++ [⟨n, a, v, some n, some v, some 0⟩] := by
    intro a p hp hopen
    rw [generateSignals, hn, hopen, forceClose]
    rw [if_pos ⟨hp, List.cons_ne_nil _ _⟩]
    rw [hn]
    simp only [Nat.add_sub_cancel]
    rw [hz]
    rw [show ((some (some v) : Option (Option ℚ))).join = some v from rfl, closeHead, hstep]
    exact List.reverse_cons _ _
  by_cases hbuy : v < -entryT
  · refine ⟨.buySpread, ?_, henrich .buySpread⟩
    refine hfinish .buySpread 1 one_ne_zero ?_
    rw [hrun]
    simp [stepSig, hbuy]
  · have hsell : entryT < v := hcond.resolve_left hbuy
    refine ⟨.sellSpread, ?_, henrich .sellSpread⟩
    refine hfinish .sellSpread (-1) (neg_ne_zero.mpr one_ne_zero) ?_
    rw [hrun]
    simp [stepSig, hbuy, hsell]

/-- Witness for C10: on the z-score series [0, 3] with entry threshold 2 the
    entry condition first (and only) holds at the final bar. -/
theorem last_bar_entry_witness :
    ∃ a : SpreadAction,
      generateSignals [some 0, some 3] 2 1 1 (fun k => (k : ℤ)) =
        ([] : List TradeRec).reverse ++ [⟨1, a, 3, some 1, some 3, some 0⟩] ∧
      ∀ p1 p2 hedge m, ∃ f : TradeFull,
        enrichTrade p1 p2 hedge m (⟨1, a, 3, some 1, some 3, some 0⟩ : TradeRec) = some f ∧
          f.pnl = 0 ∧ f.returnPct = 0 ∧ annualizedReturn f = none :=
  last_bar_entry [some 0, some 3] 2 1 1 (fun k => (k : ℤ)) 1 3 []
    (by decide) (by decide) (by decide) (by decide) (Or.inr (by norm_num))

/-- C5 counterexample: doubling the margin requirement from 1.3 does not
    strictly decrease return_pct for every SELL_SPREAD trade with nonzero
    leg 2 entry price.  First input: leg 1 entry price 0, so the capital
    m * price1 + hedge * price2 does not depend on m and return_pct is
    unchanged.  Second input: positive leg 1 entry price but negative pnl,
    so the larger capital base strictly increases return_pct. -/
theorem margin_claim_counterexample :
    (∃ f ∈ calcReturns (fun _ => (0 : ℚ)) (fun i => if i = 0 then (1 : ℚ) else 0)
        1 (13/10) [⟨0, .sellSpread, 3, some 1, some 0, some 1⟩],
     ∃ g ∈ calcReturns (fun _ => (0 : ℚ)) (fun i => if i = 0 then (1 : ℚ) else 0)
        1 (2 * (13/10)) [⟨0, .sellSpread, 3, some 1, some 0, some 1⟩],
       f.p2Entry ≠ 0 ∧ ¬ g.returnPct < f.returnPct) ∧
    (∃ f ∈ calcReturns (fun i => if i = 0 then (1 : ℚ) else 2) (fun _ => (1 : ℚ))
        1 (13/10) [⟨0, .sellSpread, 3, some 1, some 0, some 1⟩],
     ∃ g ∈ calcReturns (fun i => if i = 0 then (1 : ℚ) else 2) (fun _ => (1 : ℚ))
        1 (2 * (13/10)) [⟨0, .sellSpread, 3, some 1, some 0, some 1⟩],
       f.p2Entry ≠ 0 ∧ f.returnPct < g.returnPct) := by
  constructor
  · refine ⟨_, List.Mem.head _, _, List.Mem.head _, ?_, ?_⟩ <;>
      norm_num [calcReturns, enrichTrade, calcCapitalRequired]
  · refine ⟨_, List.Mem.head _, _, List.Mem.head _, ?_, ?_⟩ <;>
      norm_num [calcReturns, enrichTrade, calcCapitalRequired]

/-- C5 amended: for a finalized SELL_SPREAD trade with positive leg 1 entry
    price, nonnegative hedge ratio and leg 2 entry price, positive margin
    requirement and strictly positive pnl, doubling the margin requirement
    strictly decreases the recorded return_pct (prices and hedge ratio held
    fixed). -/
theorem margin_monotone_amended (p1 p2 : ℕ → ℚ) (hedge m : ℚ) (ti e : ℕ)
    (tz : ℚ) (tez : Option ℚ) (td : Option ℤ)
    (hm : 0 < m) (hp1 : 0 < p1 ti) (hh : 0 ≤ hedge) (hp2 : 0 ≤ p2 ti)
    (hpnl : 0 < (p1 ti - p1 e) - hedge * (p2 ti - p2 e))
    (f g : TradeFull)
    (hf : enrichTrade p1 p2 hedge m ⟨ti, .sellSpread, tz, some e, tez, td⟩ = some f)
    (hg : enrichTrade p1 p2 hedge (2 * m) ⟨ti, .sellSpread, tz, some e, tez, td⟩ = some g) :
    g.returnPct < f.returnPct := by
  simp only [enrichTrade, Option.some.injEq] at hf hg
  subst hf
  subst hg
  have hc1 : (0 : ℚ) < m * p1 ti + hedge * p2 ti :=
    add_pos_of_pos_of_nonneg (mul_pos hm hp1) (mul_nonneg hh hp2)
  have hc2 : (0 : ℚ) < 2 * m * p1 ti + hedge * p2 ti := by nlinarith
  have hlt : m * p1 ti + hedge * p2 ti < 2 * m * p1 ti + hedge * p2 ti := by nlinarith
  show (if 0 < calcCapitalRequired hedge (2 * m) .sellSpread (p1 ti) (p2 ti) then
      ((p1 ti - p1 e) - hedge * (p2 ti - p2 e)) /
        calcCapitalRequired hedge (2 * m) .sellSpread (p1 ti) (p2 ti) * 100 else 0) <
    (if 0 < calcCapitalRequired hedge m .sellSpread (p1 ti) (p2 ti) then
      ((p1 ti - p1 e) - hedge * (p2 ti - p2 e)) /
        calcCapitalRequired hedge m .sellSpread (p1 ti) (p2 ti) * 100 else 0)
  rw [if_pos (show 0 < calcCapitalRequired hedge (2 * m) .sellSpread (p1 ti) (p2 ti) from hc2),
      if_pos (show 0 < calcCapitalRequired hedge m .sellSpread (p1 ti) (p2 ti) from hc1)]
  have hdiv : ((p1 ti - p1 e) - hedge * (p2 ti - p2 e)) / (2 * m * p1 ti + hedge * p2 ti) <
      ((p1 ti - p1 e) - hedge * (p2 ti - p2 e)) / (m * p1 ti + hedge * p2 ti) :=
    div_lt_div_of_pos_left hpnl hc1 hlt
  calc ((p1 ti - p1 e) - hedge * (p2 ti - p2 e)) /
        calcCapitalRequired hedge (2 * m) .sellSpread (p1 ti) (p2 ti) * 100
      = ((p1 ti - p1 e) - hedge * (p2 ti - p2 e)) /
        (2 * m * p1 ti + hedge * p2 ti) * 100 := rfl
    _ < ((p1 ti - p1 e) - hedge * (p2 ti - p2 e)) /
        (m * p1 ti + hedge * p2 ti) * 100 := by
        exact mul_lt_mul_of_pos_right hdiv (by norm_num)
    _ = ((p1 ti - p1 e) - hedge * (p2 ti - p2 e)) /
        calcCapitalRequired hedge m .sellSpread (p1 ti) (p2 ti) * 100 := rfl

/-- Witness for the amended C5: a winning SELL_SPREAD trade with positive
    prices whose return strictly drops when the margin doubles. -/
theorem margin_monotone_amended_witness :
    ∃ f, enrichTrade (fun i => if i = 0 then (10 : ℚ) else 8) (fun _ => (10 : ℚ)) 1 (13/10)
        ⟨0, .sellSpread, 3, some 1, some 0, some 1⟩ = some f ∧
    ∃ g, enrichTrade (fun i => if i = 0 then (10 : ℚ) else 8) (fun _ => (10 : ℚ)) 1 (2 * (13/10))
        ⟨0, .sellSpread, 3, some 1, some 0, some 1⟩ = some g ∧
      g.returnPct < f.returnPct :=
  ⟨_, rfl, _, rfl,
   margin_monotone_amended (fun i => if i = 0 then (10 : ℚ) else 8) (fun _ => (10 : ℚ))
     1 (13/10) 0 1 3 (some 0) (some 1)
     (by norm_num) (by norm_num) (by norm_num) (by norm_num) (by norm_num)
     _ _ rfl rfl⟩

/-! ## Pearson correlation over pairwise complete observations

  Both screeners compute pandas Pearson correlations between two date
  indexed price columns over the dates where both are present.  A price
  matrix is embedded as a list of named columns over a shared date index
  (positions); a missing cell is none.  The correlation is
  cov / (sqrt varx * sqrt vary) over the pairwise complete rows, NaN
  (none) when there are no such rows or either variance is zero. -/

/-- Rows where both columns are present, as value pairs. -/
def alignedPairs (xs ys : List (Option ℚ)) : List (ℚ × ℚ) :=
  (xs.zip ys).filterMap fun ab => ab.1.bind fun a => ab.2.map fun b => (a, b)

/-- The present values of one column (pandas dropna). -/
def vals (xs : List (Option ℚ)) : List ℚ := xs.filterMap id

/-- Sum of squared deviations from the mean. -/
def varSum (l : List ℚ) : ℚ := (l.map (fun x => (x - meanQ l) ^ 2)).sum

/-- Sum of products of deviations from the two means. -/
def covSum (ps : List (ℚ × ℚ)) : ℚ :=
  (ps.map (fun p => (p.1 - meanQ (ps.map Prod.fst)) * (p.2 - meanQ (ps.map Prod.snd)))).sum

/-- Pearson correlation of two columns over their pairwise complete rows
    (the shared count normalization of covariance and variances cancels).
    none models the NaN that pandas returns when either variance is zero,
    in particular when fewer than two rows overlap. -/
noncomputable def pearson (xs ys : List (Option ℚ)) : Option ℝ :=
  if varSum ((alignedPairs xs ys).map Prod.fst) = 0 ∨
     varSum ((alignedPairs xs ys).map Prod.snd) = 0 then none
  else some ((covSum (alignedPairs xs ys) : ℝ) /
    (Real.sqrt ((varSum ((alignedPairs xs ys).map Prod.fst) : ℚ)) *
     Real.sqrt ((varSum ((alignedPairs xs ys).map Prod.snd) : ℚ))))

def colAt (m : List (String × List (Option ℚ))) (i : ℕ) : List (Option ℚ) :=
  (m.getD i ("", [])).2

def nameAt (m : List (String × List (Option ℚ))) (i : ℕ) : String :=
  (m.getD i ("", [])).1

/-- The unordered column pairs (i, j), i < j, in the scan order of the
    nested loops of find_strong_pairs and find_all_pairs. -/
def indexPairs (n : ℕ) : List (ℕ × ℕ) :=
  (List.range n).flatMap fun i => (List.range' (i + 1) (n - (i + 1))).map fun j => (i, j)

/-! ## CorrelationCalculator.find_strong_pairs

  find_strong_pairs receives the price matrix and the correlation matrix
  (price_matrix.corr()), scans column pairs (i, j), i < j, keeps a pair when
  its correlation is not NaN, its absolute value reaches min_correlation and
  the number of common days reaches min_common_days, and finally sorts by
  the stored abs_correlation key, descending, with the stable Python list
  sort.  The audit columns of the pair dict that take no part in the filter
  or the ordering (mean prices, volatilities and their quotients, metadata)
  are omitted from the embedding. -/

structure CandidatePair where
  ticker1 : String
  ticker2 : String
  correlation : ℝ
  absCorrelation : ℝ
  commonDays : ℕ

/-- The body of the find_strong_pairs scan for one column pair. -/
noncomputable def mkCandidate (m : List (String × List (Option ℚ)))
    (minCorr : ℚ) (minDays : ℕ) (ij : ℕ × ℕ) : Option CandidatePair :=
  match pearson (colAt m ij.1) (colAt m ij.2) with
  | none => none
  | some c =>
      if ((minCorr : ℝ)) ≤ |c| then
        if minDays ≤ (alignedPairs (colAt m ij.1) (colAt m ij.2)).length then
          some { ticker1 := nameAt m ij.1, ticker2 := nameAt m ij.2,
                 correlation := c, absCorrelation := |c|,
                 commonDays := (alignedPairs (colAt m ij.1) (colAt m ij.2)).length }
        else none
      else none

noncomputable def scanStrongPairs (m : List (String × List (Option ℚ)))
    (minCorr : ℚ) (minDays : ℕ) : List CandidatePair :=
  (indexPairs m.length).filterMap (mkCandidate m minCorr minDays)

/-- Sort key relation of pairs.sort(key=abs_correlation, reverse=True). -/
def keyGe (a b : CandidatePair) : Prop := b.absCorrelation ≤ a.absCorrelation

noncomputable instance : DecidableRel keyGe :=
  fun a b => LinearOrder.decidableLE b.absCorrelation a.absCorrelation

instance : IsTotal CandidatePair keyGe := ⟨fun _ _ => le_total _ _⟩

instance : IsTrans CandidatePair keyGe := ⟨fun _ _ _ hab hbc => le_trans hbc hab⟩

/-- find_strong_pairs: scan then stable sort by descending absolute
    correlation (insertion sort places an earlier pair before later pairs
    of equal key, as the stable Python sort does). -/
noncomputable def findStrongPairs (m : List (String × List (Option ℚ)))
    (minCorr : ℚ) (minDays : ℕ) : List CandidatePair :=
  List.insertionSort keyGe (scanStrongPairs m minCorr minDays)

/-! ## CointegratedPairsFinder.find_all_pairs

  Stage 1 filters column pairs by common day count and absolute
  correlation.  Stage 2, per surviving pair: the Engle-Granger test
  (statsmodels coint) gates on p-value < coint_pvalue_threshold; the hedge
  ratio comes from scipy linregress of series1 on series2 and a NaN slope
  skips the pair; the spread series1 - hedge * series2 over the common
  dates feeds the ADF test (statsmodels adfuller), which returns NaN below
  50 observations and gates on p-value < adf_pvalue_threshold.  Only pairs
  passing every gate are emitted; a failing pair is skipped and the loop
  continues.  The external statistics routines are oracles: none models a
  NaN statistic or slope.  The spread_metrics and metadata audit columns
  are omitted. -/

structure CointCandidate where
  ticker1 : String
  ticker2 : String
  correlation : ℝ
  commonDays : ℕ

structure CointPair where
  cand : CointCandidate
  cointStatistic : ℚ
  cointPValue : ℚ
  adfStatistic : ℚ
  adfPValue : ℚ
  hedge : ℚ
  regressionRSquared : ℚ
  regressionIntercept : ℚ

/-- The external statistics routines used by find_all_pairs. -/
structure StatOracles where
  coint : List ℚ → List ℚ → Option (ℚ × ℚ)
  linreg : List ℚ → List ℚ → Option (ℚ × ℚ × ℚ)
  adf : List ℚ → Option (ℚ × ℚ)

/-- Stage 1 body: common day gate, then correlation gate. -/
noncomputable def mkCointCandidate (m : List (String × List (Option ℚ)))
    (minCorr : ℚ) (minDays : ℕ) (ij : ℕ × ℕ) : Option CointCandidate :=
  if (alignedPairs (colAt m ij.1) (colAt m ij.2)).length < minDays then none
  else
    match pearson (colAt m ij.1) (colAt m ij.2) with
    | none => none
    | some c =>
        if ((minCorr : ℝ)) ≤ |c| then
          some { ticker1 := nameAt m ij.1, ticker2 := nameAt m ij.2,
                 correlation := c,
                 commonDays := (alignedPairs (colAt m ij.1) (colAt m ij.2)).length }
        else none

def lookupCol (m : List (String × List (Option ℚ))) (t : String) : List (Option ℚ) :=
  ((m.find? fun c => c.1 == t).map Prod.snd).getD []

/-- Stage 2 body for one candidate: cointegration gate, hedge ratio,
    spread, stationarity gate. -/
def processCandidate (m : List (String × List (Option ℚ))) (or : StatOracles)
    (cointThr adfThr : ℚ) (minDays : ℕ) (c : CointCandidate) : Option CointPair :=
  let al := alignedPairs (lookupCol m c.ticker1) (lookupCol m c.ticker2)
  match (if al.length < minDays then none else or.coint (al.map Prod.fst) (al.map Prod.snd)) with
  | none => none
  | some (cs, cp) =>
      if cp < cointThr then
        match (if al.length < minDays then none
               else or.linreg (al.map Prod.snd) (al.map Prod.fst)) with
        | none => none
        | some (slope, rsq, icept) =>
            match (if (al.map fun p => p.1 - slope * p.2).length < 50 then none
                   else or.adf (al.map fun p => p.1 - slope * p.2)) with
            | none => none
            | some (astat, ap) =>
                if ap < adfThr then
                  some { cand := c, cointStatistic := cs, cointPValue := cp,
                         adfStatistic := astat, adfPValue := ap,
                         hedge := slope, regressionRSquared := rsq,
                         regressionIntercept := icept }
                else none
      else none

noncomputable def findAllPairs (m : List (String × List (Option ℚ)))
    (or : StatOracles) (minCorr cointThr adfThr : ℚ) (minDays : ℕ) : List CointPair :=
  ((indexPairs m.length).filterMap (mkCointCandidate m minCorr minDays)).filterMap
    (processCandidate m or cointThr adfThr minDays)

/-! ## HistoricalDataFetcher.create_price_matrix

  The per-instrument daily series are left-joined onto the sorted union of
  all observed dates, then rows with too many missing cells are dropped:
  dropna(thresh=0.7 * number_of_columns) keeps a row exactly when its count
  of present cells is at least 0.7 times the number of instrument
  columns. -/

/-- The union of observed dates, ascending. -/
def unionDates (data : List (String × List (ℤ × ℚ))) : List ℤ :=
  List.insertionSort (fun a b => a ≤ b) (data.flatMap fun c => c.2.map Prod.fst).dedup

/-- The left-joined price matrix before the missing data filter: one row
    per date, one Option cell per instrument. -/
def joinedMatrix (data : List (String × List (ℤ × ℚ))) : List (ℤ × List (Option ℚ)) :=
  (unionDates data).map fun d =>
    (d, data.map fun c => (c.2.find? fun p => p.1 == d).map Prod.snd)

/-- create_price_matrix: the joined matrix with the dropna row filter. -/
def createPriceMatrix (data : List (String × List (ℤ × ℚ))) :
    List (ℤ × List (Option ℚ)) :=
  (joinedMatrix data).filter fun row =>
    decide ((7 : ℚ)/10 * (data.length : ℚ) ≤ (((row.2.filterMap id).length : ℕ) : ℚ))

/-- C6: every pair record emitted by find_all_pairs passed both statistical
    gates strictly: its Engle-Granger p-value is below the cointegration
    threshold and its ADF p-value is below the stationarity threshold.
    Pairs failing a gate, or with a NaN statistic or NaN hedge ratio, are
    dropped by the surrounding filterMap without aborting the scan of the
    remaining pairs. -/
theorem coint_gates (m : List (String × List (Option ℚ))) (or : StatOracles)
    (minCorr cointThr adfThr : ℚ) (minDays : ℕ) :
    ∀ p ∈ findAllPairs m or minCorr cointThr adfThr minDays,
      p.cointPValue < cointThr ∧ p.adfPValue < adfThr := by
  intro p hp
  rcases List.mem_filterMap.mp hp with ⟨c, _, hc⟩
  simp only [processCandidate] at hc
  split at hc
  · exact Option.noConfusion hc
  · split at hc
    · split at hc
      · exact Option.noConfusion hc
      · split at hc
        · exact Option.noConfusion hc
        · split at hc
          · cases hc
            exact ⟨by assumption, by assumption⟩
          · exact Option.noConfusion hc
    · exact Option.noConfusion hc

theorem sq_dev_sum_eq_zero {c : ℚ} :
    ∀ {l : List ℚ}, (l.map fun x => (x - c) ^ 2).sum = 0 → ∀ x ∈ l, x = c := by
  intro l
  induction l with
  | nil => intro _ x hx; exact absurd hx (List.not_mem_nil x)
  | cons a l ih =>
      intro h x hx
      rw [List.map_cons, List.sum_cons] at h
      have hrest : 0 ≤ (l.map fun x => (x - c) ^ 2).sum :=
        List.sum_nonneg (by
          intro y hy
          rcases List.mem_map.mp hy with ⟨u, _, hu⟩
          rw [← hu]
          exact sq_nonneg _)
      have ha : (a - c) ^ 2 = 0 := by nlinarith [sq_nonneg (a - c)]
      rcases List.mem_cons.mp hx with rfl | hx
      · have := pow_eq_zero_iff (n := 2) (by norm_num) |>.mp ha
        linarith [this]
      · exact ih (by nlinarith [sq_nonneg (a - c)]) x hx

/-- Two distinct members force a nonzero sum of squared deviations. -/
theorem varSum_ne_zero_of_ne {l : List ℚ} {a b : ℚ}
    (ha : a ∈ l) (hb : b ∈ l) (hab : a ≠ b) : varSum l ≠ 0 := by
  intro h0
  have := sq_dev_sum_eq_zero (c := meanQ l) (l := l) h0
  exact hab ((this a ha).trans (this b hb).symm)

/-- Witness column for C6: fifty alternating closes 1, 2. -/
def colW : List (Option ℚ) := (List.range 50).map fun i => some (if i % 2 = 0 then (1 : ℚ) else 2)

def mW : List (String × List (Option ℚ)) := [("A", colW), ("B", colW)]

/-- Constant oracles for the C6 witness: every test returns statistic 0 with
    p-value 0 and the regression returns slope 1. -/
def orW : StatOracles :=
  ⟨fun _ _ => some (0, 0), fun _ _ => some (1, 1, 0), fun _ => some (0, 0)⟩

theorem pearson_colW : ∃ c : ℝ, pearson colW colW = some c := by
  have hne : varSum ((alignedPairs colW colW).map Prod.fst) ≠ 0 :=
    varSum_ne_zero_of_ne (a := 1) (b := 2) (by decide) (by decide) (by norm_num)
  have hne2 : varSum ((alignedPairs colW colW).map Prod.snd) ≠ 0 :=
    varSum_ne_zero_of_ne (a := 1) (b := 2) (by decide) (by decide) (by norm_num)
  refine ⟨(covSum (alignedPairs colW colW) : ℝ) /
    (Real.sqrt ((varSum ((alignedPairs colW colW).map Prod.fst) : ℚ)) *
     Real.sqrt ((varSum ((alignedPairs colW colW).map Prod.snd) : ℚ))), ?_⟩
  unfold pearson
  rw [if_neg (not_or.mpr ⟨hne, hne2⟩)]

/-- Witness for C6: with the columns of mW and the constant oracles, the
    single candidate pair passes every gate and the emitted record carries
    p-values strictly below the thresholds. -/
theorem coint_gates_witness :
    ∃ p ∈ findAllPairs mW orW 0 1 1 2, p.cointPValue < 1 ∧ p.adfPValue < 1 := by
  obtain ⟨c, hc⟩ := pearson_colW
  have hcand : mkCointCandidate mW 0 2 (0, 1) =
      some ⟨"A", "B", c, 50⟩ := by
    unfold mkCointCandidate
    rw [if_neg (by decide)]
    have hcol : pearson (colAt mW (0, 1).1) (colAt mW (0, 1).2) = some c := hc
    rw [hcol]
    dsimp only
    rw [if_pos (by rw [Rat.cast_zero]; exact abs_nonneg c)]
    rfl
  have hproc : processCandidate mW orW 1 1 2 (⟨"A", "B", c, 50⟩ : CointCandidate) =
      some ⟨⟨"A", "B", c, 50⟩, 0, 0, 0, 0, 1, 1, 0⟩ := by
    unfold processCandidate
    dsimp only
    have h1 : (if (alignedPairs (lookupCol mW "A") (lookupCol mW "B")).length < 2 then none
        else orW.coint ((alignedPairs (lookupCol mW "A") (lookupCol mW "B")).map Prod.fst)
          ((alignedPairs (lookupCol mW "A") (lookupCol mW "B")).map Prod.snd)) =
        some ((0 : ℚ), (0 : ℚ)) := by
      rw [if_neg (by decide)]
      rfl
    rw [h1]
    dsimp only
    rw [if_pos (show (0 : ℚ) < 1 by norm_num)]
    have h2 : (if (alignedPairs (lookupCol mW "A") (lookupCol mW "B")).length < 2 then none
        else orW.linreg ((alignedPairs (lookupCol mW "A") (lookupCol mW "B")).map Prod.snd)
          ((alignedPairs (lookupCol mW "A") (lookupCol mW "B")).map Prod.fst)) =
        some ((1 : ℚ), (1 : ℚ), (0 : ℚ)) := by
      rw [if_neg (by decide)]
      rfl
    rw [h2]
    dsimp only
    have h3 : (if ((alignedPairs (lookupCol mW "A") (lookupCol mW "B")).map
          fun p => p.1 - 1 * p.2).length < 50 then none
        else orW.adf ((alignedPairs (lookupCol mW "A") (lookupCol mW "B")).map
          fun p => p.1 - 1 * p.2)) = some ((0 : ℚ), (0 : ℚ)) := by
      rw [if_neg (by simp [List.length_map]; decide)]
      rfl
    rw [h3]
    dsimp only
    rw [if_pos (show (0 : ℚ) < 1 by norm_num)]
  have hall : findAllPairs mW orW 0 1 1 2 =
      [⟨⟨"A", "B", c, 50⟩, 0, 0, 0, 0, 1, 1, 0⟩] := by
    unfold findAllPairs
    have hidx : indexPairs mW.length = [(0, 1)] := by decide
    rw [hidx]
    rw [List.filterMap_cons, hcand]
    rw [List.filterMap_nil, List.filterMap_cons, hproc, List.filterMap_nil]
  rw [hall]
  exact ⟨_, List.Mem.head _,
    coint_gates mW orW 0 1 1 2 _ (by rw [hall]; exact List.Mem.head _)⟩

/-- C7 amended: find_strong_pairs returns the filtered pairs sorted in
    descending order of absolute correlation, and the sorted list is a
    permutation of the scanned pairs; the sort is the stable Python list
    sort keyed on abs_correlation alone, so pairs of equal absolute
    correlation stay in pair scan order and commonDays and ticker names
    are not sort keys. -/
theorem strong_pairs_sorted_amended (m : List (String × List (Option ℚ)))
    (minCorr : ℚ) (minDays : ℕ) :
    List.Sorted keyGe (findStrongPairs m minCorr minDays) ∧
    (findStrongPairs m minCorr minDays).Perm (scanStrongPairs m minCorr minDays) :=
  ⟨List.sorted_insertionSort keyGe _, List.perm_insertionSort keyGe _⟩

/-- The ordering asserted by the claim: descending absolute correlation,
    ties broken by larger commonDays, then lexical ticker order. -/
def claimPrec (a b : CandidatePair) : Prop :=
  b.absCorrelation < a.absCorrelation ∨
  (a.absCorrelation = b.absCorrelation ∧ b.commonDays < a.commonDays) ∨
  (a.absCorrelation = b.absCorrelation ∧ a.commonDays = b.commonDays ∧
    (a.ticker1 < b.ticker1 ∨ (a.ticker1 = b.ticker1 ∧ a.ticker2 ≤ b.ticker2)))

/-- Counterexample columns for C7: two disjointly supported pairs with
    exactly zero correlation (so equal absolute correlation) but different
    common day counts, the pair with fewer common days scanned first. -/
def colX1 : List (Option ℚ) := [some 1, some 2, some 3, none, none, none, none]

def colY1 : List (Option ℚ) := [some 1, some 2, some 1, none, none, none, none]

def colX2 : List (Option ℚ) := [none, none, none, some 1, some 2, some 3, some 4]

def colY2 : List (Option ℚ) := [none, none, none, some 1, some 2, some 2, some 1]

def mCE : List (String × List (Option ℚ)) :=
  [("A", colX1), ("B", colY1), ("C", colX2), ("D", colY2)]

def ceAB : CandidatePair := ⟨"A", "B", 0, |(0 : ℝ)|, 3⟩

def ceCD : CandidatePair := ⟨"C", "D", 0, |(0 : ℝ)|, 4⟩

theorem pearson_zero_cov (xs ys : List (Option ℚ))
    (h0 : covSum (alignedPairs xs ys) = 0)
    (hx : varSum ((alignedPairs xs ys).map Prod.fst) ≠ 0)
    (hy : varSum ((alignedPairs xs ys).map Prod.snd) ≠ 0) :
    pearson xs ys = some 0 := by
  unfold pearson
  rw [if_neg (not_or.mpr ⟨hx, hy⟩), h0]
  norm_num

theorem pearson_empty (xs ys : List (Option ℚ)) (h : alignedPairs xs ys = []) :
    pearson xs ys = none := by
  unfold pearson
  rw [if_pos (Or.inl (by rw [h]; rfl))]

theorem pearson_AB : pearson colX1 colY1 = some 0 := by
  have hal : alignedPairs colX1 colY1 = [(1, 1), (2, 2), (3, 1)] := by decide
  apply pearson_zero_cov
  · rw [hal]
    norm_num [covSum, meanQ]
  · rw [hal]
    exact varSum_ne_zero_of_ne (a := 1) (b := 2) (by decide) (by decide) (by norm_num)
  · rw [hal]
    exact varSum_ne_zero_of_ne (a := 1) (b := 2) (by decide) (by decide) (by norm_num)

theorem pearson_CD : pearson colX2 colY2 = some 0 := by
  have hal : alignedPairs colX2 colY2 = [(1, 1), (2, 2), (3, 2), (4, 1)] := by decide
  apply pearson_zero_cov
  · rw [hal]
    norm_num [covSum, meanQ]
  · rw [hal]
    exact varSum_ne_zero_of_ne (a := 1) (b := 2) (by decide) (by decide) (by norm_num)
  · rw [hal]
    exact varSum_ne_zero_of_ne (a := 1) (b := 2) (by decide) (by decide) (by norm_num)

theorem mkCE01 : mkCandidate mCE 0 1 (0, 1) = some ceAB := by
  unfold mkCandidate
  have hcol : pearson (colAt mCE (0, 1).1) (colAt mCE (0, 1).2) = some 0 := pearson_AB
  rw [hcol]
  dsimp only
  rw [if_pos (by rw [Rat.cast_zero]; exact abs_nonneg 0)]
  rw [if_pos (by decide)]
  rfl

theorem mkCE23 : mkCandidate mCE 0 1 (2, 3) = some ceCD := by
  unfold mkCandidate
  have hcol : pearson (colAt mCE (2, 3).1) (colAt mCE (2, 3).2) = some 0 := pearson_CD
  rw [hcol]
  dsimp only
  rw [if_pos (by rw [Rat.cast_zero]; exact abs_nonneg 0)]
  rw [if_pos (by decide)]
  rfl

theorem mkCE02 : mkCandidate mCE 0 1 (0, 2) = none := by
  unfold mkCandidate
  rw [pearson_empty (colAt mCE (0, 2).1) (colAt mCE (0, 2).2) (by decide)]

theorem mkCE03 : mkCandidate mCE 0 1 (0, 3) = none := by
  unfold mkCandidate
  rw [pearson_empty (colAt mCE (0, 3).1) (colAt mCE (0, 3).2) (by decide)]

theorem mkCE12 : mkCandidate mCE 0 1 (1, 2) = none := by
  unfold mkCandidate
  rw [pearson_empty (colAt mCE (1, 2).1) (colAt mCE (1, 2).2) (by decide)]

theorem mkCE13 : mkCandidate mCE 0 1 (1, 3) = none := by
  unfold mkCandidate
  rw [pearson_empty (colAt mCE (1, 3).1) (colAt mCE (1, 3).2) (by decide)]

theorem scanCE : scanStrongPairs mCE 0 1 = [ceAB, ceCD] := by
  unfold scanStrongPairs
  have hidx : indexPairs mCE.length = [(0, 1), (0, 2), (0, 3), (1, 2), (1, 3), (2, 3)] := by
    decide
  rw [hidx]
  simp only [List.filterMap_cons, List.filterMap_nil,
    mkCE01, mkCE02, mkCE03, mkCE12, mkCE13, mkCE23]

theorem sortCE : findStrongPairs mCE 0 1 = [ceAB, ceCD] := by
  unfold findStrongPairs
  rw [scanCE]
  simp only [List.insertionSort, List.orderedInsert]
  rw [if_pos (show keyGe ceAB ceCD from le_refl _)]

/-- C7 counterexample: on the matrix mCE with min_correlation 0 and
    min_common_days 1, find_strong_pairs returns the pair A, B (3 common
    days) before the equally correlated pair C, D (4 common days), because
    the stable sort keeps scan order on ties; the claimed ordering (ties
    broken by larger commonDays first) is violated. -/
theorem strong_pairs_claim_counterexample :
    ¬ List.Pairwise claimPrec (findStrongPairs mCE 0 1) := by
  rw [sortCE]
  intro hpw
  have h := (List.pairwise_cons.mp hpw).1 ceCD (List.Mem.head _)
  rcases h with h | ⟨_, h⟩ | ⟨_, h, _⟩
  · exact absurd h (lt_irrefl _)
  · exact absurd h (by decide)
  · exact absurd h (by decide)

theorem mem_joined_pos (data : List (String × List (ℤ × ℚ))) (d : ℤ)
    (row : List (Option ℚ)) (h : (d, row) ∈ joinedMatrix data) :
    0 < data.length := by
  unfold joinedMatrix at h
  rcases List.mem_map.mp h with ⟨dd, hdd, _⟩
  unfold unionDates at hdd
  rw [List.mem_insertionSort, List.mem_dedup] at hdd
  rcases List.mem_flatMap.mp hdd with ⟨c, hc, _⟩
  exact List.length_pos.mpr (List.ne_nil_of_mem hc)

/-- C8: a date row of the left-joined price matrix survives
    create_price_matrix exactly when the fraction of instrument columns
    with a present value in that row is at least 0.7 (dropna with
    thresh = 0.7 * number_of_columns keeps rows whose non missing count
    reaches the threshold); the kept rows appear unchanged and in order,
    as a sublist of the joined matrix. -/
theorem price_matrix_filter (data : List (String × List (ℤ × ℚ))) (d : ℤ)
    (row : List (Option ℚ)) :
    ((d, row) ∈ createPriceMatrix data ↔
      (d, row) ∈ joinedMatrix data ∧
        (7 : ℚ)/10 ≤ ((row.filterMap id).length : ℚ) / (data.length : ℚ)) ∧
    (createPriceMatrix data).Sublist (joinedMatrix data) := by
  constructor
  · unfold createPriceMatrix
    rw [List.mem_filter]
    constructor
    · rintro ⟨hmem, hp⟩
      refine ⟨hmem, ?_⟩
      rw [decide_eq_true_eq] at hp
      have hn : (0 : ℚ) < (data.length : ℚ) := by
        exact_mod_cast mem_joined_pos data d row hmem
      rw [le_div_iff₀ hn]
      exact hp
    · rintro ⟨hmem, hfrac⟩
      refine ⟨hmem, ?_⟩
      rw [decide_eq_true_eq]
      have hn : (0 : ℚ) < (data.length : ℚ) := by
        exact_mod_cast mem_joined_pos data d row hmem
      rw [le_div_iff₀ hn] at hfrac
      exact hfrac
  · exact List.filter_sublist _

def dataW : List (String × List (ℤ × ℚ)) := [("A", [(0, 1), (1, 2)]), ("B", [(0, 3)])]

/-- Witness for C8: with two instruments, the date row where both are
    present (100 percent ≥ 70 percent) is kept; the row where only one of
    the two is present (50 percent) is dropped. -/
theorem price_matrix_filter_witness :
    ((0 : ℤ), [some (1 : ℚ), some 3]) ∈ createPriceMatrix dataW ∧
    ¬ ((1 : ℤ), [some (2 : ℚ), none]) ∈ createPriceMatrix dataW :=
  ⟨(price_matrix_filter dataW 0 [some 1, some 3]).1.mpr
      ⟨by decide, by
        rw [show (List.filterMap id [some (1 : ℚ), some 3]).length = 2 from by decide]
        norm_num [dataW]⟩,
   fun h => by
     have := ((price_matrix_filter dataW 1 [some 2, none]).1.mp h).2
     rw [show (List.filterMap id [some (2 : ℚ), none]).length = 1 from by decide] at this
     norm_num [dataW] at this⟩

end TradingBot
